import Mathlib

/-!
Verification of the fixed-capacity sequence container
(IgorExt::StaticVector, file Igor-StaticVector.hpp) against its
natural-language specification.

Shallow embedding conventions:
* A container state carries the two compile-time triviality traits of the
  element type, the capacity, the storage block and the length counter
  (fields named after the C++ members where possible).
* Storage is a list of length CAPACITY whose entries are Option-valued:
  some v models a slot holding a live element with value v; none models a
  slot that holds no live object (raw bytes of the byte-backed storage of
  UninitializedArray).  In the array-backed case (the element type is
  trivially default constructible and trivially destructible,
  constructor_and_destructor_are_cheap in the source) the storage starts
  as all-live default values and no slot is ever dead.
* Machine sizes (size_t / ssize_t) are modelled as Nat / Int; no modelled
  quantity ever approaches the word size so wrap-around is irrelevant.
* A C++ assertion failure and undefined behaviour (reading a slot holding
  no live object, assigning through a reference to a slot holding no live
  object, placement-new outside the storage block) are both modelled as
  the Option result none.  Operations that complete normally return some.
-/

namespace IgorExt

/-- Reverse iterator adaptor (detail::ReverseIterator).  The wrapped
pointer m_ptr is modelled as the signed slot index it points to inside
the owning container's storage block: data() + i is modelled as i, and
data() - 1 (the rend position) is modelled as -1. -/
structure ReverseIterator where
  m_ptr : Int
deriving DecidableEq

namespace ReverseIterator

/-- operator== : compares the wrapped addresses. -/
def beq (a b : ReverseIterator) : Bool := a.m_ptr == b.m_ptr

/-- operator< : compares the wrapped addresses. -/
def lt (a b : ReverseIterator) : Bool := a.m_ptr < b.m_ptr

/-- operator<= : compares the wrapped addresses. -/
def le (a b : ReverseIterator) : Bool := a.m_ptr ≤ b.m_ptr

/-- operator> : compares the wrapped addresses. -/
def gt (a b : ReverseIterator) : Bool := a.m_ptr > b.m_ptr

/-- operator>= : compares the wrapped addresses. -/
def ge (a b : ReverseIterator) : Bool := a.m_ptr ≥ b.m_ptr

/-- operator++ : advancing a reverse iterator decrements the address. -/
def inc (a : ReverseIterator) : ReverseIterator := ⟨a.m_ptr - 1⟩

/-- operator-- : retreating a reverse iterator increments the address. -/
def dec (a : ReverseIterator) : ReverseIterator := ⟨a.m_ptr + 1⟩

/-- operator+(offset) : moves the address down by the offset. -/
def add (a : ReverseIterator) (offset : Int) : ReverseIterator := ⟨a.m_ptr - offset⟩

/-- operator-(offset) : moves the address up by the offset. -/
def sub (a : ReverseIterator) (offset : Int) : ReverseIterator := ⟨a.m_ptr + offset⟩

/-- operator-(other) : distance, defined as other.m_ptr - m_ptr. -/
def dist (a b : ReverseIterator) : Int := b.m_ptr - a.m_ptr

/-- Advancing k times with operator++. -/
def advance (a : ReverseIterator) : Nat → ReverseIterator
  | 0 => a
  | k + 1 => advance a.inc k

theorem advance_m_ptr (a : ReverseIterator) : ∀ k : Nat, (a.advance k).m_ptr = a.m_ptr - k := by
  intro k
  induction k generalizing a with
  | zero => simp [advance]
  | succ k ih =>
      show ((a.inc).advance k).m_ptr = _
      rw [ih]
      simp [inc]
      omega

end ReverseIterator

/-- The fixed-capacity container (class StaticVector<Element, CAPACITY>).
trivCtor and trivDtor model std::is_trivially_default_constructible_v and
std::is_trivially_destructible_v of the element type; cap models the
CAPACITY template parameter; m_storage models the UninitializedArray
block (slot i holds some v when a live element with value v exists there,
none when the raw bytes hold no object); m_size is the length counter. -/
structure StaticVector (α : Type) where
  trivCtor : Bool
  trivDtor : Bool
  cap : Nat
  m_storage : List (Option α)
  m_size : Nat
deriving DecidableEq

namespace StaticVector

variable {α : Type}

/-- constructor_and_destructor_are_cheap from UninitializedArray: the
storage is a genuine pre-initialized array exactly when the element type
is trivially default constructible and trivially destructible. -/
def cheap (s : StaticVector α) : Bool := s.trivCtor && s.trivDtor

/-- Reading the element at slot i, i.e. dereferencing data() + i.  The
read is defined exactly when the slot lies inside the storage block and
holds a live object; anything else is undefined behaviour (none). -/
def readSlot (s : StaticVector α) (i : Nat) : Option α :=
  match s.m_storage[i]? with
  | some (some v) => some v
  | _ => none

/-- Assignment through operator[]: (*this)[i] = v.  Defined exactly when
slot i lies inside the storage block and already holds a live object
(assigning through a reference into raw bytes is undefined behaviour). -/
def assignAt (s : StaticVector α) (i : Nat) (v : α) : Option (StaticVector α) :=
  match s.m_storage[i]? with
  | some (some _) => some { s with m_storage := s.m_storage.set i (some v) }
  | _ => none

/-- Placement new at slot i: new (data() + i) Element(v).  Defined when
the slot lies inside the storage block. -/
def constructAt (s : StaticVector α) (i : Nat) (v : α) : Option (StaticVector α) :=
  if i < s.m_storage.length then
    some { s with m_storage := s.m_storage.set i (some v) }
  else none

/-- std::destroy_at(data() + i).  For a trivially destructible element
type destruction has no observable effect and the underlying array slot
stays usable; otherwise the slot reverts to holding no live object. -/
def destroyAt (s : StaticVector α) (i : Nat) : Option (StaticVector α) :=
  if i < s.m_storage.length then
    some { s with m_storage := if s.trivDtor then s.m_storage else s.m_storage.set i none }
  else none

/-- The freshly value-initialized state: m_storage{} value-initializes
the block (all-default live array elements in the cheap case, objectless
raw bytes otherwise) and m_size starts at 0.  Models the default
constructor StaticVector(). -/
def mkEmpty [Inhabited α] (tc td : Bool) (cap : Nat) : StaticVector α :=
  { trivCtor := tc, trivDtor := td, cap := cap,
    m_storage := if tc && td then List.replicate cap (some default) else List.replicate cap none,
    m_size := 0 }

/-- push_back: asserts m_size < CAPACITY, placement-constructs the new
element at slot m_size and increments m_size. -/
def push_back (s : StaticVector α) (e : α) : Option (StaticVector α) :=
  if s.m_size < s.cap then
    (s.constructAt s.m_size e).map fun t => { t with m_size := t.m_size + 1 }
  else none

/-- emplace_back: asserts m_size < CAPACITY and placement-constructs
Element(args...) at slot m_size; modelled with the already-constructed
element value, which makes its body coincide with push_back. -/
def emplace_back (s : StaticVector α) (e : α) : Option (StaticVector α) :=
  if s.m_size < s.cap then
    (s.constructAt s.m_size e).map fun t => { t with m_size := t.m_size + 1 }
  else none

/-- pop_back: asserts m_size > 0, decrements m_size, moves the last
element out and destroys its slot, returning the removed value. -/
def pop_back (s : StaticVector α) : Option (α × StaticVector α) :=
  if 0 < s.m_size then
    match s.readSlot (s.m_size - 1) with
    | some v =>
        match { s with m_size := s.m_size - 1 : StaticVector α }.destroyAt (s.m_size - 1) with
        | some t => some (v, t)
        | none => none
    | none => none
  else none

/-- Destruction of the live range [0, n): the loop bodies of clear() and
of the destructor for a non-trivially-destructible element type. -/
def destroyBelow : List (Option α) → Nat → List (Option α)
  | l, 0 => l
  | [], _ + 1 => []
  | _ :: t, n + 1 => none :: destroyBelow t n

/-- clear: destroys every live element (skipped for trivially
destructible element types) and sets m_size to 0. -/
def clear (s : StaticVector α) : StaticVector α :=
  { s with
    m_storage := if s.trivDtor then s.m_storage else destroyBelow s.m_storage s.m_size,
    m_size := 0 }

/-- Appending a whole sequence with repeated push_back: the loop body of
the initializer-list constructor. -/
def pushAll (s : StaticVector α) (vs : List α) : Option (StaticVector α) :=
  vs.foldlM push_back s

/-- Appending count copies of a value with repeated push_back: the loop
body of StaticVector(size, init) and of assign. -/
def pushN (s : StaticVector α) (v : α) : Nat → Option (StaticVector α)
  | 0 => some s
  | n + 1 =>
    match s.push_back v with
    | some t => pushN t v n
    | none => none

/-- assign(count, value): asserts count <= CAPACITY, clears, then
appends count copies of value. -/
def assign (s : StaticVector α) (count : Nat) (v : α) : Option (StaticVector α) :=
  if count ≤ s.cap then
    pushN s.clear v count
  else none

/-- The loop of resize when growing: (*this)[i] = Element{} for i in
[i0, i0 + n), assignment into the slots in ascending order. -/
def assignRange (s : StaticVector α) (i : Nat) (v : α) : Nat → Option (StaticVector α)
  | 0 => some s
  | n + 1 =>
    match s.assignAt i v with
    | some t => assignRange t (i + 1) v n
    | none => none

/-- resize(count): asserts count <= CAPACITY; when growing it first sets
m_size to count and then assigns a default-constructed value into every
slot in [old_size, count); when shrinking it only sets m_size to count
(no slot is destroyed). -/
def resize [Inhabited α] (s : StaticVector α) (count : Nat) : Option (StaticVector α) :=
  if count ≤ s.cap then
    if s.m_size < count then
      assignRange { s with m_size := count } s.m_size default (count - s.m_size)
    else
      some { s with m_size := count }
  else none

/-- The shift loop of insert: for (i = m_size; i > idx; --i)
(*this)[i] = std::move((*this)[i-1]), i.e. with n = m_size - idx the
slots idx+n, ..., idx+1 receive (in descending order) the value of the
slot one below. -/
def shiftUpN (s : StaticVector α) (idx : Nat) : Nat → Option (StaticVector α)
  | 0 => some s
  | n + 1 =>
    match s.readSlot (idx + n) with
    | some v =>
        match s.assignAt (idx + n + 1) v with
        | some t => shiftUpN t idx n
        | none => none
    | none => none

/-- insert(pos, value): asserts m_size < CAPACITY, computes
idx = distance(cbegin(), pos) and asserts idx >= 0 (nothing checks
idx <= m_size), shifts the elements at indices >= idx one slot up by
assignment, assigns value into slot idx and increments m_size. -/
def insert (s : StaticVector α) (pos : Int) (value : α) : Option (StaticVector α) :=
  if s.m_size < s.cap then
    if 0 ≤ pos then
      let idx := pos.toNat
      match s.shiftUpN idx (s.m_size - idx) with
      | some t =>
          match t.assignAt idx value with
          | some u => some { u with m_size := u.m_size + 1 }
          | none => none
      | none => none
    else none
  else none

/-- The element moves of erase: std::move(last, end(), first) copies the
n = end - last slots starting at src down onto the slots starting at
dst, in ascending order, by assignment. -/
def moveLoop : StaticVector α → Nat → Nat → Nat → Option (StaticVector α)
  | s, _, _, 0 => some s
  | s, dst, src, n + 1 =>
    match s.readSlot src with
    | some v =>
        match s.assignAt dst v with
        | some t => moveLoop t (dst + 1) (src + 1) n
        | none => none
    | none => none

/-- erase(first, last) with first and last given as the slot indices f
and l: shifts the trailing elements [l, m_size) down onto [f, ...) by
assignment, asserts 0 <= l - f <= m_size, and decrements m_size by
l - f.  No slot is destroyed. -/
def erase (s : StaticVector α) (f l : Nat) : Option (StaticVector α) :=
  match moveLoop s f l (s.m_size - l) with
  | some t =>
      if f ≤ l ∧ l - f ≤ s.m_size then
        some { t with m_size := t.m_size - (l - f) }
      else none
  | none => none

/-- operator[]: plain dereference of data() + idx with no assertion of
any kind (in particular idx < m_size is never checked). -/
def opIndex (s : StaticVector α) (idx : Nat) : Option α :=
  s.readSlot idx

/-- front(): asserts m_size > 0 and returns (*this)[0]. -/
def front (s : StaticVector α) : Option α :=
  if 0 < s.m_size then s.readSlot 0 else none

/-- back(): asserts m_size > 0 and returns (*this)[m_size - 1]. -/
def back (s : StaticVector α) : Option α :=
  if 0 < s.m_size then s.readSlot (s.m_size - 1) else none

/-- rbegin(): a reverse iterator wrapping data() + m_size - 1, the
address of the last live slot. -/
def rbegin (s : StaticVector α) : ReverseIterator :=
  ⟨(s.m_size : Int) - 1⟩

/-- rend(): a reverse iterator wrapping data() - 1, one slot before the
first. -/
def rend (_ : StaticVector α) : ReverseIterator :=
  ⟨-1⟩

/-- Dereferencing a reverse iterator inside container s: defined when
the wrapped address is a storage slot holding a live object. -/
def derefRev (s : StaticVector α) (it : ReverseIterator) : Option α :=
  if 0 ≤ it.m_ptr then s.readSlot it.m_ptr.toNat else none

/-- One range-for traversal step sequence from it up to the sentinel
last: visit *it and advance with operator++ while it != last.  The fuel
argument bounds the number of visits; the traversal of [rbegin, rend)
needs exactly m_size visits. -/
def traverseLoop (s : StaticVector α) : ReverseIterator → ReverseIterator → Nat → Option (List α)
  | it, last, 0 => if it.beq last then some [] else none
  | it, last, fuel + 1 =>
    if it.beq last then some []
    else
      match s.derefRev it with
      | some v =>
          match traverseLoop s it.inc last fuel with
          | some rest => some (v :: rest)
          | none => none
      | none => none

/-- The complete reverse traversal of a container: range-for over
[rbegin(), rend()). -/
def reverseRange (s : StaticVector α) : Option (List α) :=
  traverseLoop s s.rbegin s.rend s.m_size

/-- The loop body shared by the copy constructors and copy assignments:
for (const auto& e : other) push_back(e); reads the n source slots
starting at index i and appends each to dst with push_back.  The source
is only read, never written. -/
def copyLoop : StaticVector α → StaticVector α → Nat → Nat → Option (StaticVector α)
  | dst, _, _, 0 => some dst
  | dst, src, i, n + 1 =>
    match src.readSlot i with
    | some v =>
        match dst.push_back v with
        | some d => copyLoop d src (i + 1) n
        | none => none
    | none => none

/-- The loop body shared by the move constructors and move assignments:
for (auto& e : other) push_back(std::move(e)).  Reading slot i moves the
element out: dst receives its value and the source slot stays live but
now holds the moved-from value mv v, where mv models the element type's
moved-from transformation.  Returns the pair (dst, src) after the loop. -/
def moveOutLoop (mv : α → α) :
    StaticVector α → StaticVector α → Nat → Nat → Option (StaticVector α × StaticVector α)
  | dst, src, _, 0 => some (dst, src)
  | dst, src, i, n + 1 =>
    match src.readSlot i with
    | some v =>
        match dst.push_back v with
        | some d =>
            moveOutLoop mv d { src with m_storage := src.m_storage.set i (some (mv v)) } (i + 1) n
        | none => none
    | none => none

/-- The guard at the top of every cross-capacity constructor and
assignment operator: the assertion other.size() <= CAPACITY is compiled
only under if constexpr (OTHER_CAPACITY > CAPACITY); the guard passes
(true) whenever no compiled assertion fails. -/
def crossCapacityGuard (cap other_cap srcLen : Nat) : Bool :=
  if cap < other_cap then decide (srcLen ≤ cap) else true

/-- The cross-capacity copy constructor
StaticVector(const StaticVector<OtherElement, OTHER_CAPACITY>&): runs
the conditional guard, then value-initializes the new container and
copies every source element in order with push_back. -/
def crossCopyCtor [Inhabited α] (tc td : Bool) (cap : Nat) (src : StaticVector α) :
    Option (StaticVector α) :=
  if crossCapacityGuard cap src.cap src.m_size then
    copyLoop (mkEmpty tc td cap) src 0 src.m_size
  else none

/-- The cross-capacity copy assignment
operator=(const StaticVector<OtherElement, OTHER_CAPACITY>&): runs the
conditional guard (there is no self-assignment check in this overload),
clears the destination and copies every source element with push_back. -/
def crossCopyAssign (dst src : StaticVector α) : Option (StaticVector α) :=
  if crossCapacityGuard dst.cap src.cap src.m_size then
    copyLoop dst.clear src 0 src.m_size
  else none

/-- The cross-capacity move constructor
StaticVector(StaticVector<OtherElement, OTHER_CAPACITY>&&): the same
conditional guard, then push_back(Element{std::move(e)}) per element. -/
def crossMoveCtor [Inhabited α] (mv : α → α) (tc td : Bool) (cap : Nat)
    (src : StaticVector α) : Option (StaticVector α × StaticVector α) :=
  if crossCapacityGuard cap src.cap src.m_size then
    moveOutLoop mv (mkEmpty tc td cap) src 0 src.m_size
  else none

/-- The same-capacity copy constructor StaticVector(const StaticVector&):
value-initializes and copies every source element in order. -/
def copyCtor [Inhabited α] (src : StaticVector α) : Option (StaticVector α) :=
  copyLoop (mkEmpty src.trivCtor src.trivDtor src.cap) src 0 src.m_size

/-- The same-capacity move constructor StaticVector(StaticVector&&):
value-initializes and moves every source element in order with
push_back(std::move(e)); the source is left with its length unchanged. -/
def moveCtor [Inhabited α] (mv : α → α) (src : StaticVector α) :
    Option (StaticVector α × StaticVector α) :=
  moveOutLoop mv (mkEmpty src.trivCtor src.trivDtor src.cap) src 0 src.m_size

/-- The same-capacity copy assignment operator=(const StaticVector&):
if (this != &other) { clear(); copy every element }.  Aliasing of the
two operands is modelled by the flag is_self. -/
def copyAssign (is_self : Bool) (dst src : StaticVector α) : Option (StaticVector α) :=
  if is_self then some dst
  else copyLoop dst.clear src 0 src.m_size

/-- The same-capacity move assignment operator=(StaticVector&&):
if (this != &other) { clear(); push_back(std::move(e)) per element }.
Returns the pair (dst, src) after the operation. -/
def moveAssign (mv : α → α) (is_self : Bool) (dst src : StaticVector α) :
    Option (StaticVector α × StaticVector α) :=
  if is_self then some (dst, src)
  else moveOutLoop mv dst.clear src 0 src.m_size

/-! Specification predicates. -/

/-- The container s currently holds exactly the element sequence vs:
the storage block has the declared capacity, the length counter equals
the length of vs, the length fits the capacity, and every slot below the
length holds a live object with the corresponding value of vs. -/
def Holds (s : StaticVector α) (vs : List α) : Prop :=
  s.m_storage.length = s.cap ∧ s.m_size = vs.length ∧ vs.length ≤ s.cap ∧
    ∀ i, i < vs.length → s.m_storage[i]? = (vs[i]?).map some

instance {β : Type} [DecidableEq β] (s : StaticVector β) (vs : List β) :
    Decidable (Holds s vs) := by
  unfold Holds
  infer_instance

/-- The basic size invariant I3 of the container: the storage block has
exactly the declared capacity and the length never exceeds it. -/
def SizeInv (s : StaticVector α) : Prop :=
  s.m_storage.length = s.cap ∧ s.m_size ≤ s.cap

instance {β : Type} (s : StaticVector β) : Decidable (SizeInv s) := by
  unfold SizeInv
  infer_instance

/-- Every storage slot holds a live object: the defining property of the
array-backed (cheap) storage, which value-initializes all CAPACITY
elements and never ends a lifetime. -/
def AllLive (s : StaticVector α) : Prop :=
  ∀ o ∈ s.m_storage, o.isSome = true

instance {β : Type} (s : StaticVector β) : Decidable (AllLive s) := by
  unfold AllLive
  infer_instance

/-! Helper lemmas about the embedded operations. -/

theorem push_back_eq {s : StaticVector α} (h : s.m_size < s.cap)
    (hlen : s.m_size < s.m_storage.length) (e : α) :
    s.push_back e =
      some { s with m_storage := s.m_storage.set s.m_size (some e), m_size := s.m_size + 1 } := by
  simp [push_back, constructAt, h, hlen]

theorem Holds_push_back {s : StaticVector α} {vs : List α} (hs : Holds s vs) (e : α)
    (h : vs.length < s.cap) :
    ∃ t, s.push_back e = some t ∧ Holds t (vs ++ [e]) ∧ t.cap = s.cap ∧
      t.trivCtor = s.trivCtor ∧ t.trivDtor = s.trivDtor ∧
      t.m_storage.length = s.m_storage.length ∧ t.m_size = s.m_size + 1 ∧
      (∀ j, j ≠ vs.length → t.m_storage[j]? = s.m_storage[j]?) := by
  obtain ⟨hlen, hsz, hle, hget⟩ := hs
  refine ⟨_, push_back_eq (by omega) (by omega) e, ?_, rfl, rfl, rfl, by simp, by simp, ?_⟩
  · refine ⟨by simp [hlen], by simp [hsz], by simpa using h, ?_⟩
    intro i hi
    simp only [List.length_append, List.length_singleton] at hi
    rcases Nat.lt_or_ge i vs.length with hlt | hge
    · rw [List.getElem?_set_ne (by omega), hget i hlt]
      simp [List.getElem?_append, hlt]
    · have hieq : i = vs.length := by omega
      subst hieq
      rw [hsz, List.getElem?_set_eq_of_lt _ (by omega), List.getElem?_concat_length]
      rfl
  · intro j hj
    exact List.getElem?_set_ne (by omega)

theorem Holds_pushAll (vs : List α) :
    ∀ {s : StaticVector α} {us : List α}, Holds s us → us.length + vs.length ≤ s.cap →
    ∃ t, s.pushAll vs = some t ∧ Holds t (us ++ vs) ∧ t.cap = s.cap ∧
      t.trivCtor = s.trivCtor ∧ t.trivDtor = s.trivDtor ∧
      t.m_storage.length = s.m_storage.length := by
  induction vs with
  | nil =>
      intro s us hs _
      exact ⟨s, rfl, by simpa using hs, rfl, rfl, rfl, rfl⟩
  | cons v vs ih =>
      intro s us hs h
      obtain ⟨t, ht, htH, hcap, htc, htd, hlen, _, _⟩ :=
        Holds_push_back hs v (by simp at h; omega)
      obtain ⟨u, hu, huH, hucap, hutc, hutd, hulen⟩ :=
        ih htH (by simp [hcap]; simp at h; omega)
      refine ⟨u, ?_, by simpa using huH, by rw [hucap, hcap], by rw [hutc, htc],
        by rw [hutd, htd], by rw [hulen, hlen]⟩
      simpa [pushAll, List.foldlM_cons, ht] using hu

theorem Holds_mkEmpty [Inhabited α] (tc td : Bool) (cap : Nat) :
    Holds (mkEmpty (α := α) tc td cap) [] := by
  refine ⟨?_, rfl, by simp [mkEmpty], by simp⟩
  unfold mkEmpty
  split <;> simp

/-- Reading a slot below the length of a container that holds vs. -/
theorem readSlot_of_Holds {s : StaticVector α} {vs : List α} (hs : Holds s vs)
    {i : Nat} (hi : i < vs.length) : ∃ v, vs[i]? = some v ∧ s.readSlot i = some v := by
  obtain ⟨_, _, _, hget⟩ := hs
  have hv : vs[i]? = some vs[i] := List.getElem?_eq_getElem hi
  exact ⟨_, hv, by simp [readSlot, hget i hi, hv]⟩

end StaticVector

/-! Concrete sample containers used as inputs of witnesses and
counterexamples.  The cheap-prefixed ones are states of the
array-backed instantiation (trivially default constructible and
destructible element type); the raw-prefixed ones are states of the
byte-backed instantiation. -/

/-- Array-backed container of capacity 4 holding 1, 2, 3: the state
reached from the default constructor by push_back 1, 2, 3. -/
def cheapVec3 : StaticVector Nat :=
  { trivCtor := true, trivDtor := true, cap := 4,
    m_storage := [some 1, some 2, some 3, some 0], m_size := 3 }

/-- Array-backed container of capacity 2 holding the single element 5. -/
def cheapVec1 : StaticVector Nat :=
  { trivCtor := true, trivDtor := true, cap := 2,
    m_storage := [some 5, some 0], m_size := 1 }

/-- Byte-backed container of capacity 4 holding 10, 20, 30: the state
reached from the default constructor by push_back 10, 20, 30 for a
non-trivial element type; slot 3 holds no live object. -/
def rawVec3 : StaticVector Nat :=
  { trivCtor := false, trivDtor := false, cap := 4,
    m_storage := [some 10, some 20, some 30, none], m_size := 3 }

/-- Array-backed container of capacity 3 holding 1, 3: the input of the
spec's insertion example. -/
def cheapVec2 : StaticVector Nat :=
  { trivCtor := true, trivDtor := true, cap := 3,
    m_storage := [some 1, some 3, some 0], m_size := 2 }

/-- The state the embedded erase leaves behind on rawVec3.erase 1 2. -/
def rawVec3Erased : StaticVector Nat :=
  { trivCtor := false, trivDtor := false, cap := 4,
    m_storage := [some 10, some 30, some 30, none], m_size := 2 }

/-- The state the embedded resize leaves behind on rawVec3.resize 1. -/
def rawVec3Shrunk : StaticVector Nat :=
  { trivCtor := false, trivDtor := false, cap := 4,
    m_storage := [some 10, some 20, some 30, none], m_size := 1 }

/-- Provenance of the sample states: each is what the modelled
constructor and push_back sequence actually produce. -/
theorem sampleVec_provenance :
    StaticVector.pushAll (StaticVector.mkEmpty true true 4) [1, 2, 3] = some cheapVec3 ∧
    StaticVector.pushAll (StaticVector.mkEmpty true true 2) [5] = some cheapVec1 ∧
    StaticVector.pushAll (StaticVector.mkEmpty false false 4) [10, 20, 30] = some rawVec3 := by
  decide

namespace StaticVector

/-! ### Claim theorems -/

/-- Claim C6: starting from an empty container of any capacity C, any
sequence of k <= C push_back calls with values v1, ..., vk succeeds and
leaves the container with length k and the element at index i equal to
the (i+1)-st pushed value, in the order pushed. -/
theorem pushBack_sequence_inOrder [Inhabited α] (tc td : Bool) (cap : Nat) (vs : List α)
    (h : vs.length ≤ cap) :
    ∃ t, (mkEmpty (α := α) tc td cap).pushAll vs = some t ∧ Holds t vs ∧
      t.m_size = vs.length ∧ ∀ i, i < vs.length → t.readSlot i = vs[i]? := by
  obtain ⟨t, ht, htH, -, -, -, -⟩ :=
    Holds_pushAll vs (Holds_mkEmpty tc td cap) (by simpa using h)
  refine ⟨t, ht, by simpa using htH, by simpa using htH.2.1, ?_⟩
  intro i hi
  obtain ⟨v, hv, hr⟩ := readSlot_of_Holds (by simpa using htH) hi
  rw [hr, hv]

/-- Witness for C6: pushing 1, 2, 3 into an empty container of capacity
4 yields length 3 with elements 1, 2, 3 in order. -/
theorem pushBack_sequence_inOrder_witness :
    ∃ t, (mkEmpty (α := Nat) true true 4).pushAll [1, 2, 3] = some t ∧ Holds t [1, 2, 3] ∧
      t.m_size = 3 ∧ ∀ i, i < 3 → t.readSlot i = [1, 2, 3][i]? := by
  have h := pushBack_sequence_inOrder (α := Nat) true true 4 [1, 2, 3] (by decide)
  simpa using h

/-- Traversing with the reverse iterator from the cursor addressing slot
j - 1, with fuel j, visits the first j elements of the container in
back-to-front order. -/
theorem traverseLoop_take {s : StaticVector α} {vs : List α} (hs : Holds s vs) :
    ∀ j, j ≤ vs.length →
      traverseLoop s ⟨(j : Int) - 1⟩ ⟨-1⟩ j = some (vs.take j).reverse := by
  intro j
  induction j with
  | zero =>
      intro _
      simp [traverseLoop, ReverseIterator.beq]
  | succ j ih =>
      intro hj
      obtain ⟨v, hv, hr⟩ := readSlot_of_Holds hs (show j < vs.length by omega)
      have h1 : (((j + 1 : Nat) : Int) - 1) = (j : Int) := by push_cast; omega
      have hbeq : (ReverseIterator.beq ⟨((j + 1 : Nat) : Int) - 1⟩ ⟨-1⟩) = false := by
        simp [ReverseIterator.beq, h1]
      have hderef : s.derefRev ⟨((j + 1 : Nat) : Int) - 1⟩ = some v := by
        rw [show (⟨((j + 1 : Nat) : Int) - 1⟩ : ReverseIterator) = ⟨(j : Int)⟩ from by rw [h1]]
        simpa [derefRev] using hr
      have hinc : (ReverseIterator.inc ⟨((j + 1 : Nat) : Int) - 1⟩) = ⟨(j : Int) - 1⟩ := by
        simp [ReverseIterator.inc, h1]
      have htake : vs.take (j + 1) = vs.take j ++ [v] := by
        rw [List.take_succ, hv]
        rfl
      rw [traverseLoop, hbeq]
      simp only [Bool.false_eq_true, if_false, hderef, hinc, ih (by omega), htake]
      simp

/-- Claim C8: for a container holding the elements vs, the traversal
from rbegin to rend visits exactly the elements of vs in back-to-front
order; the rbegin cursor addresses the last live slot (index
m_size - 1) and the rend cursor addresses the slot one before the first
(index -1). -/
theorem reverse_iteration_back_to_front {s : StaticVector α} {vs : List α} (hs : Holds s vs) :
    s.reverseRange = some vs.reverse ∧
      s.rbegin.m_ptr = (vs.length : Int) - 1 ∧ s.rend.m_ptr = -1 := by
  have hsz : s.m_size = vs.length := hs.2.1
  refine ⟨?_, by simp [rbegin, hsz], rfl⟩
  unfold reverseRange
  rw [show s.rbegin = ⟨(vs.length : Int) - 1⟩ from by simp [rbegin, hsz],
    show s.rend = ⟨-1⟩ from rfl, hsz]
  simpa [List.take_length] using traverseLoop_take hs vs.length le_rfl

/-- Witness for C8: reverse iteration over the container holding
1, 2, 3 yields exactly 3, 2, 1, with rbegin addressing slot 2 and rend
addressing slot -1. -/
theorem reverse_iteration_back_to_front_witness :
    Holds cheapVec3 [1, 2, 3] ∧ cheapVec3.reverseRange = some [3, 2, 1] ∧
      cheapVec3.rbegin.m_ptr = 2 ∧ cheapVec3.rend.m_ptr = -1 := by
  have h := reverse_iteration_back_to_front (show Holds cheapVec3 [1, 2, 3] by decide)
  exact ⟨by decide, by simpa using h.1, by simpa using h.2.1, h.2.2⟩

/-- Claim C4 (amended): the relational operators on two reverse cursors
over the same container follow the wrapped address, which is the
REVERSE of adaptor traversal order: a cursor reached after k1
advancements from rbegin compares less-than one reached after k2
advancements exactly when k2 < k1, i.e. an earlier-reached cursor
compares greater, not less. -/
theorem reverse_cursor_order_is_address_order (s : StaticVector α) (k1 k2 : Nat) :
    ((s.rbegin.advance k1).lt (s.rbegin.advance k2) = decide (k2 < k1)) ∧
    ((s.rbegin.advance k1).le (s.rbegin.advance k2) = decide (k2 ≤ k1)) ∧
    ((s.rbegin.advance k1).gt (s.rbegin.advance k2) = decide (k1 < k2)) ∧
    ((s.rbegin.advance k1).ge (s.rbegin.advance k2) = decide (k1 ≤ k2)) := by
  have h1 := ReverseIterator.advance_m_ptr s.rbegin k1
  have h2 := ReverseIterator.advance_m_ptr s.rbegin k2
  refine ⟨?_, ?_, ?_, ?_⟩ <;>
    simp only [ReverseIterator.lt, ReverseIterator.le, ReverseIterator.gt,
      ReverseIterator.ge, h1, h2] <;>
    exact decide_eq_decide.mpr (by omega)

/-- Witness for C4 (amended) at a concrete container and offsets. -/
theorem reverse_cursor_order_is_address_order_witness :
    ((cheapVec3.rbegin.advance 0).lt (cheapVec3.rbegin.advance 2) = false) ∧
    ((cheapVec3.rbegin.advance 0).gt (cheapVec3.rbegin.advance 2) = true) := by
  have h := reverse_cursor_order_is_address_order cheapVec3 0 2
  exact ⟨by simpa using h.1, by simpa using h.2.2.1⟩

/-- Counterexample to C4 as stated: in the container holding 1, 2, 3
the rbegin cursor is reached strictly earlier than its successor when
advancing from rbegin, so the claim demands rbegin < successor; the
implemented operator< compares the wrapped addresses and yields false
(and operator> yields true). -/
theorem reverse_cursor_lt_counterexample :
    cheapVec3.rbegin.advance 1 = cheapVec3.rbegin.inc ∧
    cheapVec3.rbegin.lt cheapVec3.rbegin.inc = false ∧
    cheapVec3.rbegin.gt cheapVec3.rbegin.inc = true := by
  decide

/-- In an all-live state every storage index below the capacity holds a
live object. -/
theorem AllLive_get {s : StaticVector α} (h : AllLive s) {i : Nat}
    (hi : i < s.m_storage.length) : ∃ v, s.m_storage[i]? = some (some v) := by
  have hg : s.m_storage[i]? = some s.m_storage[i] := List.getElem?_eq_getElem hi
  have hmem : s.m_storage[i] ∈ s.m_storage := List.getElem_mem hi
  obtain ⟨v, hv⟩ := Option.isSome_iff_exists.mp (h _ hmem)
  exact ⟨v, by rw [hg, hv]⟩

/-- destroyBelow never changes the length of the storage block. -/
theorem destroyBelow_length : ∀ (l : List (Option α)) (n : Nat),
    (destroyBelow l n).length = l.length
  | [], n => by cases n <;> rfl
  | _ :: _, 0 => rfl
  | _ :: t, n + 1 => by simp [destroyBelow, destroyBelow_length t n]

/-- After clear the container holds the empty sequence. -/
theorem Holds_clear {s : StaticVector α} (hlen : s.m_storage.length = s.cap) :
    Holds s.clear [] := by
  refine ⟨?_, rfl, by simp, by simp⟩
  unfold clear
  by_cases h : s.trivDtor = true <;> simp [h, destroyBelow_length, hlen]

/-- The readSlot values of a container holding vs, phrased for the copy
and move loops: the slot at offset k from index i holds element i + k
of vs. -/
theorem Holds_slots_from {s : StaticVector α} {vs : List α} (hs : Holds s vs) (i : Nat)
    (hi : i + (vs.drop i).length ≤ vs.length) :
    ∀ k, k < (vs.drop i).length → s.m_storage[i + k]? = ((vs.drop i)[k]?).map some := by
  intro k hk
  have hlen : (vs.drop i).length = vs.length - i := List.length_drop i vs
  have h1 : i + k < vs.length := by omega
  rw [hs.2.2.2 (i + k) h1, List.getElem?_drop]

/-- The copy loop of the copy constructors and assignments is the same
as appending the copied source elements with pushAll. -/
theorem copyLoop_eq_pushAll {src : StaticVector α} (ws : List α) :
    ∀ (i : Nat) (dst : StaticVector α),
      (∀ k, k < ws.length → src.m_storage[i + k]? = (ws[k]?).map some) →
      copyLoop dst src i ws.length = dst.pushAll ws := by
  induction ws with
  | nil => intro i dst _; rfl
  | cons w ws ih =>
      intro i dst hsrc
      have h0 : src.readSlot i = some w := by
        have h := hsrc 0 (by simp)
        simp only [Nat.add_zero, List.getElem?_cons_zero, Option.map_some'] at h
        simp [readSlot, h]
      show copyLoop dst src i (ws.length + 1) = _
      rw [copyLoop, h0]
      cases hpb : dst.push_back w with
      | none => simp [pushAll, List.foldlM_cons, hpb]
      | some d =>
          simp only [pushAll, List.foldlM_cons, hpb, Option.bind_some, Option.some_bind]
          exact ih (i + 1) d (fun k hk => by
            have h := hsrc (k + 1) (by simpa using Nat.succ_lt_succ hk)
            rw [show i + 1 + k = i + (k + 1) by omega]
            simpa using h)

/-- Claim C1 (amended): the dedicated runtime length check of the
cross-capacity copy operations is compiled ONLY when the source's
declared capacity strictly exceeds the destination's; when the source
capacity is less than or equal, the guard is unconditionally passing
and no check of the source length against the destination capacity is
performed.  For any source satisfying its representation invariant the
complete copy constructor and copy assignment nevertheless fail exactly
when the source length exceeds the destination capacity (which can only
happen in the checked branch) and otherwise succeed, copying all
elements in order. -/
theorem crossCapacity_check_behavior [Inhabited α] (tc td : Bool) (cap : Nat)
    {s : StaticVector α} {vs : List α} (hs : Holds s vs) :
    (cap < s.cap → crossCapacityGuard cap s.cap s.m_size = decide (s.m_size ≤ cap)) ∧
    (s.cap ≤ cap → crossCapacityGuard cap s.cap s.m_size = true) ∧
    (crossCopyCtor tc td cap s = none ↔ cap < vs.length) ∧
    (vs.length ≤ cap → ∃ d, crossCopyCtor tc td cap s = some d ∧ Holds d vs) ∧
    (∀ dst : StaticVector α, dst.m_storage.length = dst.cap → dst.cap = cap →
      (crossCopyAssign dst s = none ↔ cap < vs.length) ∧
      (vs.length ≤ cap → ∃ d, crossCopyAssign dst s = some d ∧ Holds d vs)) := by
  have hsz : s.m_size = vs.length := hs.2.1
  have hle : vs.length ≤ s.cap := hs.2.2.1
  have hslots : ∀ k, k < vs.length → s.m_storage[0 + k]? = (vs[k]?).map some := by
    intro k hk
    simpa using hs.2.2.2 k hk
  have hloop : ∀ dst : StaticVector α, copyLoop dst s 0 s.m_size = dst.pushAll vs := by
    intro dst
    rw [hsz]
    exact copyLoop_eq_pushAll vs 0 dst hslots
  have hguard_true : vs.length ≤ cap → crossCapacityGuard cap s.cap s.m_size = true := by
    intro hc
    unfold crossCapacityGuard
    split
    · simp [hsz, hc]
    · rfl
  have hguard_false : cap < vs.length → crossCapacityGuard cap s.cap s.m_size = false := by
    intro hc
    unfold crossCapacityGuard
    rw [if_pos (by omega)]
    simp [hsz]
    omega
  constructor
  · intro h
    unfold crossCapacityGuard
    rw [if_pos h]
  constructor
  · intro h
    unfold crossCapacityGuard
    rw [if_neg (by omega)]
  have hctor : vs.length ≤ cap → ∃ d, crossCopyCtor tc td cap s = some d ∧ Holds d vs := by
    intro hc
    obtain ⟨d, hd, hdH, -, -, -, -⟩ :=
      Holds_pushAll vs (Holds_mkEmpty (α := α) tc td cap) (by simpa using hc)
    refine ⟨d, ?_, by simpa using hdH⟩
    unfold crossCopyCtor
    rw [hguard_true hc, if_pos rfl, hloop]
    exact hd
  constructor
  · constructor
    · intro hnone
      by_contra hc
      obtain ⟨d, hd, -⟩ := hctor (by omega)
      rw [hd] at hnone
      exact Option.noConfusion hnone
    · intro hc
      unfold crossCopyCtor
      rw [hguard_false hc]
      simp
  constructor
  · exact hctor
  · intro dst hdlen hdcap
    have hassign : vs.length ≤ cap → ∃ d, crossCopyAssign dst s = some d ∧ Holds d vs := by
      intro hc
      obtain ⟨d, hd, hdH, -, -, -, -⟩ :=
        Holds_pushAll vs (Holds_clear hdlen) (by simp [clear, hdcap]; omega)
      refine ⟨d, ?_, by simpa using hdH⟩
      unfold crossCopyAssign
      rw [hdcap, hguard_true hc, if_pos rfl, hloop]
      exact hd
    refine ⟨⟨?_, ?_⟩, hassign⟩
    · intro hnone
      by_contra hc
      obtain ⟨d, hd, -⟩ := hassign (by omega)
      rw [hd] at hnone
      exact Option.noConfusion hnone
    · intro hc
      unfold crossCopyAssign
      rw [hdcap, hguard_false hc]
      simp

/-- Witness for C1 (amended): copying the byte-backed container holding
10, 20, 30 into a destination of capacity 2 fails, and into a
destination of capacity 3 succeeds with all elements copied. -/
theorem crossCapacity_check_behavior_witness :
    crossCopyCtor false false 2 rawVec3 = none ∧
    (∃ d, crossCopyCtor false false 3 rawVec3 = some d ∧ Holds d [10, 20, 30]) := by
  have h2 := crossCapacity_check_behavior false false 2
    (show Holds rawVec3 [10, 20, 30] by decide)
  have h3 := crossCapacity_check_behavior false false 3
    (show Holds rawVec3 [10, 20, 30] by decide)
  exact ⟨h2.2.2.1.mpr (by decide), h3.2.2.2.1 (by decide)⟩

/-- Counterexample to C1 as stated: for destination capacity 2 and
source declared capacity 2 (not greater than the destination's), the
assertion is compiled away, so the guard accepts a source of runtime
length 3 although 3 is not at most 2: no runtime check of the source
length against the destination capacity is performed in this case. -/
theorem crossCapacity_guard_counterexample :
    crossCapacityGuard 2 2 3 = true ∧ ¬ (3 ≤ 2) := by
  decide

/-- Claim C3 (amended): the capacity and emptiness preconditions are
asserted — push_back, emplace_back and insert assert length < capacity,
pop_back, front and back assert a nonempty container, resize and assign
assert count <= capacity, and insert asserts a nonnegative position —
but indexed access (operator[]) contains NO assertion: any index inside
the storage block is dereferenced unchecked, even at or beyond the
current length. -/
theorem precondition_assertion_coverage {α : Type} [Inhabited α] :
    (∀ (s : StaticVector α) (e : α), s.cap ≤ s.m_size → s.push_back e = none) ∧
    (∀ (s : StaticVector α) (e : α), s.cap ≤ s.m_size → s.emplace_back e = none) ∧
    (∀ s : StaticVector α, s.m_size = 0 → s.pop_back = none) ∧
    (∀ s : StaticVector α, s.m_size = 0 → s.front = none) ∧
    (∀ s : StaticVector α, s.m_size = 0 → s.back = none) ∧
    (∀ (s : StaticVector α) (n : Nat), s.cap < n → s.resize n = none) ∧
    (∀ (s : StaticVector α) (n : Nat) (v : α), s.cap < n → s.assign n v = none) ∧
    (∀ (s : StaticVector α) (pos : Int) (v : α), s.cap ≤ s.m_size → s.insert pos v = none) ∧
    (∀ (s : StaticVector α) (pos : Int) (v : α), pos < 0 → s.insert pos v = none) ∧
    (∀ (s : StaticVector α) (idx : Nat), AllLive s → idx < s.m_storage.length →
      ∃ v, s.opIndex idx = some v) := by
  refine ⟨?_, ?_, ?_, ?_, ?_, ?_, ?_, ?_, ?_, ?_⟩
  · intro s e h
    simp [push_back, show ¬ s.m_size < s.cap by omega]
  · intro s e h
    simp [emplace_back, show ¬ s.m_size < s.cap by omega]
  · intro s h
    simp [pop_back, h]
  · intro s h
    simp [front, h]
  · intro s h
    simp [back, h]
  · intro s n h
    simp [resize, show ¬ n ≤ s.cap by omega]
  · intro s n v h
    simp [assign, show ¬ n ≤ s.cap by omega]
  · intro s pos v h
    simp [insert, show ¬ s.m_size < s.cap by omega]
  · intro s pos v h
    unfold insert
    split
    · rw [if_neg (by omega)]
    · rfl
  · intro s idx hAll hidx
    obtain ⟨v, hv⟩ := AllLive_get hAll hidx
    exact ⟨v, by simp [opIndex, readSlot, hv]⟩

/-- Witness for C3 (amended): a full container rejects push_back, an
empty one rejects pop_back. -/
theorem precondition_assertion_coverage_witness :
    ({ trivCtor := true, trivDtor := true, cap := 1, m_storage := [some 5],
        m_size := 1 } : StaticVector Nat).push_back 9 = none ∧
    (mkEmpty (α := Nat) true true 2).pop_back = none := by
  have h := precondition_assertion_coverage (α := Nat)
  exact ⟨h.1 _ 9 (by decide), h.2.2.1 _ (by decide)⟩

/-- Counterexample to C3 as stated: the container cheapVec1 has length
1, so reading index 1 violates the stated precondition index < length
of element access; yet operator[] performs the access without any
assertion and returns the content of the value-initialized spare slot
instead of failing. -/
theorem opIndex_no_assertion_counterexample :
    cheapVec1.m_size = 1 ∧ cheapVec1.opIndex 1 = some 0 := by
  decide

/-- Correctness of the left-shifting element moves of erase
(std::move(last, end(), first)): with destination at or below the
source, the n moved slots receive the original source values and every
other slot is untouched; sizes, capacity and flags are unchanged. -/
theorem moveLoop_spec :
    ∀ (n : Nat), ∀ (dst src : Nat) (s : StaticVector α),
      dst ≤ src →
      (∀ k, k < n → ∃ v, s.m_storage[src + k]? = some (some v)) →
      (∀ k, k < n → ∃ v, s.m_storage[dst + k]? = some (some v)) →
      ∃ t, moveLoop s dst src n = some t ∧
        t.m_size = s.m_size ∧ t.cap = s.cap ∧ t.trivCtor = s.trivCtor ∧
        t.trivDtor = s.trivDtor ∧ t.m_storage.length = s.m_storage.length ∧
        ∀ j, t.m_storage[j]? =
          if dst ≤ j ∧ j < dst + n then s.m_storage[j + (src - dst)]? else s.m_storage[j]? := by
  intro n
  induction n with
  | zero =>
      intro dst src s _ _ _
      exact ⟨s, rfl, rfl, rfl, rfl, rfl, rfl, fun j => by rw [if_neg (by omega)]⟩
  | succ n ih =>
      intro dst src s hds hsrc hdst
      obtain ⟨v0, hv0⟩ := hsrc 0 (by omega)
      obtain ⟨w0, hw0⟩ := hdst 0 (by omega)
      simp only [Nat.add_zero] at hv0 hw0
      have hdlt : dst < s.m_storage.length := by
        by_contra h
        rw [List.getElem?_eq_none (by omega)] at hw0
        exact Option.noConfusion hw0
      have hread : s.readSlot src = some v0 := by simp [readSlot, hv0]
      have hassign : s.assignAt dst v0 =
          some { s with m_storage := s.m_storage.set dst (some v0) } := by
        simp [assignAt, hw0]
      obtain ⟨t, hloop, hsz, hcap, htc, htd, hlen, hformula⟩ :=
        ih (dst + 1) (src + 1)
          { s with m_storage := s.m_storage.set dst (some v0) }
          (by omega)
          (fun k hk => by
            dsimp only
            rw [List.getElem?_set_ne (by omega)]
            obtain ⟨v, hv⟩ := hsrc (k + 1) (by omega)
            exact ⟨v, by rw [show src + 1 + k = src + (k + 1) by omega]; exact hv⟩)
          (fun k hk => by
            dsimp only
            rw [List.getElem?_set_ne (by omega)]
            obtain ⟨v, hv⟩ := hdst (k + 1) (by omega)
            exact ⟨v, by rw [show dst + 1 + k = dst + (k + 1) by omega]; exact hv⟩)
      refine ⟨t, ?_, by simpa using hsz, by simpa using hcap, by simpa using htc,
        by simpa using htd, by simpa using hlen, ?_⟩
      · rw [moveLoop, hread]
        dsimp only
        rw [hassign]
        exact hloop
      · intro j
        have hf := hformula j
        dsimp only at hf
        by_cases hj : j = dst
        · rw [hj] at hf ⊢
          rw [hf, if_neg (by omega), if_pos (by omega),
            show dst + (src - dst) = src by omega, hv0]
          exact List.getElem?_set_eq_of_lt _ hdlt
        · by_cases hj2 : dst + 1 ≤ j ∧ j < dst + 1 + n
          · rw [hf, if_pos hj2, if_pos (by omega),
              show j + (src + 1 - (dst + 1)) = j + (src - dst) by omega]
            exact List.getElem?_set_ne (by omega)
          · rw [hf, if_neg hj2, if_neg (by omega)]
            exact List.getElem?_set_ne (by omega)

/-- Claim C2 (amended): for a container holding vs and a valid range
[f, l) inside [0, length], erase(f, l) shifts the trailing elements
left to close the gap (the resulting sequence is vs with the range
removed, in order) and decrements the length by l - f, but it does NOT
destroy the now-unused trailing slots: every slot at an index in
[new_length, old_length) still holds the live (moved-from) object it
held before the call. -/
theorem erase_shifts_and_skips_destruction {s : StaticVector α} {vs : List α} {f l : Nat}
    (hs : Holds s vs) (hfl : f ≤ l) (hl : l ≤ vs.length) :
    ∃ t, s.erase f l = some t ∧ Holds t (vs.take f ++ vs.drop l) ∧
      t.m_size = vs.length - (l - f) ∧
      ∀ i, vs.length - (l - f) ≤ i → i < vs.length →
        t.m_storage[i]? = (vs[i]?).map some := by
  obtain ⟨hlen, hsz, hle, hget⟩ := hs
  have hlive : ∀ i, i < vs.length → ∃ v, s.m_storage[i]? = some (some v) := by
    intro i hi
    have hv : vs[i]? = some vs[i] := List.getElem?_eq_getElem hi
    exact ⟨vs[i], by rw [hget i hi, hv]; rfl⟩
  obtain ⟨t0, hloop, hsz0, hcap0, -, -, hlen0, hformula⟩ :=
    moveLoop_spec (vs.length - l) f l s hfl
      (fun k hk => hlive (l + k) (by omega))
      (fun k hk => hlive (f + k) (by omega))
  have herase : s.erase f l = some { t0 with m_size := t0.m_size - (l - f) } := by
    unfold erase
    rw [hsz, hloop]
    dsimp only
    rw [if_pos (show f ≤ l ∧ l - f ≤ vs.length by omega)]
  have hnewlen : (vs.take f ++ vs.drop l).length = vs.length - (l - f) := by
    simp [List.length_take, List.length_drop]
    omega
  refine ⟨_, herase, ⟨?_, ?_, ?_, ?_⟩, by dsimp only; omega, ?_⟩
  · dsimp only
    rw [hlen0, hlen, hcap0]
  · dsimp only
    rw [hnewlen]
    omega
  · rw [hnewlen]
    dsimp only
    rw [hcap0]
    omega
  · intro i hi
    rw [hnewlen] at hi
    dsimp only
    rw [hformula i]
    by_cases hif : i < f
    · rw [if_neg (by omega), hget i (by omega),
        List.getElem?_append, if_pos (by simp [List.length_take]; omega)]
      congr 1
      rw [List.getElem?_take, if_pos (by omega)]
    · rw [if_pos (by omega), hget (i + (l - f)) (by omega),
        List.getElem?_append,
        if_neg (by simp [List.length_take]; omega)]
      congr 1
      rw [List.getElem?_drop]
      congr 1
      simp [List.length_take]
      omega
  · intro i h1 h2
    dsimp only
    rw [hformula i, if_neg (by omega)]
    exact hget i h2

/-- Witness for C2 (amended): erasing the middle element of the
container holding 10, 20, 30 yields the sequence 10, 30 with length 2,
and the trailing slot 2 still holds the live object 30. -/
theorem erase_shifts_and_skips_destruction_witness :
    ∃ t, rawVec3.erase 1 2 = some t ∧ Holds t [10, 30] ∧ t.m_size = 2 ∧
      ∀ i, 2 ≤ i → i < 3 → t.m_storage[i]? = ([10, 20, 30][i]?).map some := by
  have h := erase_shifts_and_skips_destruction (f := 1) (l := 2)
    (show Holds rawVec3 [10, 20, 30] by decide) (by decide) (by decide)
  simpa using h

/-- Counterexample to C2 as stated: erasing the slot range [1, 2) from
the byte-backed container holding 10, 20, 30 leaves length 2, but the
now-unused trailing slot at index 2 is NOT destroyed: it still holds a
live object (the moved-from value 30) instead of holding no live
object. -/
theorem erase_trailing_slot_not_destroyed_counterexample :
    rawVec3.erase 1 2 = some rawVec3Erased ∧
    rawVec3Erased.m_size = 2 ∧ rawVec3Erased.m_storage[2]? = some (some 30) := by
  decide

/-- Correctness of the default-filling assignment loop of resize: when
all n target slots already hold live objects, the loop sets them to the
assigned value and leaves every other slot untouched. -/
theorem assignRange_spec (v : α) :
    ∀ (n : Nat), ∀ (i : Nat) (s : StaticVector α),
      (∀ k, k < n → ∃ w, s.m_storage[i + k]? = some (some w)) →
      ∃ t, s.assignRange i v n = some t ∧
        t.m_size = s.m_size ∧ t.cap = s.cap ∧ t.trivCtor = s.trivCtor ∧
        t.trivDtor = s.trivDtor ∧ t.m_storage.length = s.m_storage.length ∧
        ∀ j, t.m_storage[j]? =
          if i ≤ j ∧ j < i + n then some (some v) else s.m_storage[j]? := by
  intro n
  induction n with
  | zero =>
      intro i s _
      exact ⟨s, rfl, rfl, rfl, rfl, rfl, rfl, fun j => by rw [if_neg (by omega)]⟩
  | succ n ih =>
      intro i s hlive
      obtain ⟨w0, hw0⟩ := hlive 0 (by omega)
      simp only [Nat.add_zero] at hw0
      have hilt : i < s.m_storage.length := by
        by_contra h
        rw [List.getElem?_eq_none (by omega)] at hw0
        exact Option.noConfusion hw0
      have hassign : s.assignAt i v =
          some { s with m_storage := s.m_storage.set i (some v) } := by
        simp [assignAt, hw0]
      obtain ⟨t, hloop, hsz, hcap, htc, htd, hlen, hformula⟩ :=
        ih (i + 1) { s with m_storage := s.m_storage.set i (some v) }
          (fun k hk => by
            dsimp only
            by_cases hk2 : i + 1 + k = i
            · exact absurd hk2 (by omega)
            · rw [List.getElem?_set_ne (by omega)]
              obtain ⟨w, hw⟩ := hlive (k + 1) (by omega)
              exact ⟨w, by rw [show i + 1 + k = i + (k + 1) by omega]; exact hw⟩)
      refine ⟨t, ?_, by simpa using hsz, by simpa using hcap, by simpa using htc,
        by simpa using htd, by simpa using hlen, ?_⟩
      · rw [assignRange, hassign]
        exact hloop
      · intro j
        have hf := hformula j
        dsimp only at hf
        by_cases hj : j = i
        · rw [hj] at hf ⊢
          rw [hf, if_neg (by omega), if_pos (by omega)]
          exact List.getElem?_set_eq_of_lt _ hilt
        · by_cases hj2 : i + 1 ≤ j ∧ j < i + 1 + n
          · rw [hf, if_pos hj2, if_pos (by omega)]
          · rw [hf, if_neg hj2, if_neg (by omega)]
            exact List.getElem?_set_ne (by omega)

/-- Claim C5 (amended): for a container holding vs and n <= capacity,
resize(n) when shrinking (n <= length) only sets the length counter to
n, leaving the storage untouched — the slots in [n, old_length) are NOT
destroyed and keep holding their live objects; when growing (n >
length) it fills the new slots by ASSIGNMENT of default-constructed
values, well defined when every storage slot already holds an object
(the array-backed instantiation): the first elements are unchanged, the
slots [old_length, n) hold the default value and the length becomes n. -/
theorem resize_behavior [Inhabited α] {s : StaticVector α} {vs : List α} (n : Nat)
    (hs : Holds s vs) (hn : n ≤ s.cap) :
    (n ≤ vs.length →
      s.resize n = some { s with m_size := n } ∧
      ∀ i, n ≤ i → i < vs.length →
        ({ s with m_size := n } : StaticVector α).m_storage[i]? = (vs[i]?).map some) ∧
    (AllLive s → vs.length < n →
      ∃ t, s.resize n = some t ∧ t.m_size = n ∧ t.cap = s.cap ∧
        (∀ i, i < vs.length → t.m_storage[i]? = (vs[i]?).map some) ∧
        (∀ i, vs.length ≤ i → i < n → t.m_storage[i]? = some (some default)) ∧
        Holds t (vs ++ List.replicate (n - vs.length) default)) := by
  obtain ⟨hlen, hsz, hle, hget⟩ := hs
  constructor
  · intro hshrink
    constructor
    · unfold resize
      rw [if_pos hn, if_neg (by omega)]
    · intro i h1 h2
      dsimp only
      exact hget i h2
  · intro hAll hgrow
    have hspec := assignRange_spec (α := α) default (n - vs.length) vs.length
      { s with m_size := n }
      (fun k hk => by
        dsimp only
        exact AllLive_get hAll (by omega))
    obtain ⟨t, hloop, hsz', hcap', -, -, hlen', hformula⟩ := hspec
    dsimp only at hsz' hcap' hlen' hformula
    have hres : s.resize n = some t := by
      unfold resize
      rw [if_pos hn, if_pos (by omega), hsz]
      exact hloop
    have hin : ∀ i, i < vs.length → t.m_storage[i]? = (vs[i]?).map some := by
      intro i hi
      rw [hformula i, if_neg (by omega)]
      exact hget i hi
    have hnew : ∀ i, vs.length ≤ i → i < n → t.m_storage[i]? = some (some default) := by
      intro i h1 h2
      rw [hformula i, if_pos (by omega)]
    refine ⟨t, hres, by omega, by omega, hin, hnew, ?_, ?_, ?_, ?_⟩
    · omega
    · simp [List.length_replicate]
      omega
    · simp [List.length_replicate]
      omega
    · intro i hi
      simp only [List.length_append, List.length_replicate] at hi
      by_cases hiv : i < vs.length
      · rw [hin i hiv, List.getElem?_append, if_pos hiv]
      · rw [hnew i (by omega) (by omega), List.getElem?_append, if_neg (by omega),
          List.getElem?_replicate, if_pos (by omega)]
        rfl

/-- Witness for C5 (amended): growing the array-backed container
holding 1, 2, 3 to 4 default-fills slot 3 and sets the length to 4;
shrinking the byte-backed container holding 10, 20, 30 to length 1 only
rewrites the length counter. -/
theorem resize_behavior_witness :
    (∃ t, cheapVec3.resize 4 = some t ∧ t.m_size = 4 ∧ Holds t [1, 2, 3, 0]) ∧
    rawVec3.resize 1 = some { rawVec3 with m_size := 1 } := by
  have hgrow := (resize_behavior 4
    (show Holds cheapVec3 [1, 2, 3] by decide) (by decide)).2 (by decide) (by decide)
  have hshrink := (resize_behavior 1
    (show Holds rawVec3 [10, 20, 30] by decide) (by decide)).1 (by decide)
  refine ⟨?_, hshrink.1⟩
  obtain ⟨t, h1, h2, -, -, -, h3⟩ := hgrow
  exact ⟨t, h1, h2, by simpa using h3⟩

/-- Counterexample to C5 as stated: shrinking the byte-backed container
holding 10, 20, 30 to length 1 leaves the objects at indices 1 and 2
alive in the storage (no destructor runs), so the container does not
hold exactly 1 live element as the claim demands. -/
theorem resize_shrink_skips_destructors_counterexample :
    rawVec3.resize 1 = some rawVec3Shrunk ∧ rawVec3Shrunk.m_size = 1 ∧
    rawVec3Shrunk.m_storage[1]? = some (some 20) ∧
    rawVec3Shrunk.m_storage[2]? = some (some 30) := by
  decide

/-- Correctness of the right-shifting assignment loop of insert: when
every slot in [idx, idx + n] holds a live object, the loop moves each
of the slots idx, ..., idx + n - 1 one position up (in descending
order) and leaves every other slot untouched. -/
theorem shiftUpN_spec :
    ∀ (n : Nat), ∀ (idx : Nat) (s : StaticVector α),
      (∀ j, idx ≤ j → j ≤ idx + n → ∃ v, s.m_storage[j]? = some (some v)) →
      ∃ t, s.shiftUpN idx n = some t ∧
        t.m_size = s.m_size ∧ t.cap = s.cap ∧ t.trivCtor = s.trivCtor ∧
        t.trivDtor = s.trivDtor ∧ t.m_storage.length = s.m_storage.length ∧
        ∀ j, t.m_storage[j]? =
          if idx + 1 ≤ j ∧ j ≤ idx + n then s.m_storage[j - 1]? else s.m_storage[j]? := by
  intro n
  induction n with
  | zero =>
      intro idx s _
      exact ⟨s, rfl, rfl, rfl, rfl, rfl, rfl, fun j => by rw [if_neg (by omega)]⟩
  | succ n ih =>
      intro idx s hlive
      obtain ⟨v0, hv0⟩ := hlive (idx + n) (by omega) (by omega)
      obtain ⟨w0, hw0⟩ := hlive (idx + n + 1) (by omega) (by omega)
      have hwlt : idx + n + 1 < s.m_storage.length := by
        by_contra h
        rw [List.getElem?_eq_none (by omega)] at hw0
        exact Option.noConfusion hw0
      have hread : s.readSlot (idx + n) = some v0 := by simp [readSlot, hv0]
      have hassign : s.assignAt (idx + n + 1) v0 =
          some { s with m_storage := s.m_storage.set (idx + n + 1) (some v0) } := by
        simp [assignAt, hw0]
      obtain ⟨t, hloop, hsz, hcap, htc, htd, hlen, hformula⟩ :=
        ih idx { s with m_storage := s.m_storage.set (idx + n + 1) (some v0) }
          (fun j hj1 hj2 => by
            dsimp only
            rw [List.getElem?_set_ne (by omega)]
            exact hlive j hj1 (by omega))
      refine ⟨t, ?_, by simpa using hsz, by simpa using hcap, by simpa using htc,
        by simpa using htd, by simpa using hlen, ?_⟩
      · rw [shiftUpN, hread]
        dsimp only
        rw [hassign]
        exact hloop
      · intro j
        have hf := hformula j
        dsimp only at hf
        by_cases hj : j = idx + n + 1
        · rw [hj] at hf ⊢
          rw [hf, if_neg (by omega), if_pos (by omega),
            List.getElem?_set_eq_of_lt _ hwlt,
            show idx + n + 1 - 1 = idx + n by omega, hv0]
        · by_cases hj2 : idx + 1 ≤ j ∧ j ≤ idx + n
          · rw [hf, if_pos hj2, if_pos (by omega)]
            exact List.getElem?_set_ne (by omega)
          · rw [hf, if_neg hj2, if_neg (by omega)]
            exact List.getElem?_set_ne (by omega)

/-- Claim C7 (amended): for a container of the array-backed
instantiation (every storage slot below the capacity holds an object)
holding vs, with vs.length < capacity and any position idx <= length,
insert(idx, v) shifts the elements at indices >= idx one slot toward
the end, writes v at idx and increments the length; in particular the
insertion example [1,3] + insert 2 at index 1 gives [1,2,3].  For a
non-trivial element type (byte-backed storage) the final assignment of
insert targets the slot at the old length, which holds no constructed
object, so insertion at the end has no defined result there. -/
theorem insert_behavior [Inhabited α] {s : StaticVector α} {vs : List α} {idx : Nat} (v : α)
    (hs : Holds s vs) (hAll : AllLive s) (hcap : vs.length < s.cap) (hidx : idx ≤ vs.length) :
    ∃ t, s.insert (idx : Int) v = some t ∧ Holds t (vs.take idx ++ v :: vs.drop idx) ∧
      t.m_size = vs.length + 1 ∧ t.readSlot idx = some v := by
  obtain ⟨hlen, hsz, hle, hget⟩ := hs
  obtain ⟨t1, hloop, hsz1, hcap1, -, -, hlen1, hformula⟩ :=
    shiftUpN_spec (vs.length - idx) idx s
      (fun j hj1 hj2 => AllLive_get hAll (by omega))
  have ht1idx : t1.m_storage[idx]? = s.m_storage[idx]? := by
    rw [hformula idx, if_neg (by omega)]
  obtain ⟨w0, hw0⟩ := AllLive_get hAll (show idx < s.m_storage.length by omega)
  have hassign : t1.assignAt idx v =
      some { t1 with m_storage := t1.m_storage.set idx (some v) } := by
    rw [assignAt, ht1idx, hw0]
  have hidxlt : idx < t1.m_storage.length := by omega
  have hins : s.insert (idx : Int) v =
      some { t1 with m_storage := t1.m_storage.set idx (some v), m_size := t1.m_size + 1 } := by
    unfold insert
    rw [if_pos (show s.m_size < s.cap by omega),
      if_pos (show (0 : Int) ≤ (idx : Int) by omega)]
    dsimp only
    rw [Int.toNat_natCast, hsz, hloop]
    dsimp only
    rw [hassign]
  have hnewlen : (vs.take idx ++ v :: vs.drop idx).length = vs.length + 1 := by
    simp [List.length_take, List.length_drop]
    omega
  refine ⟨_, hins, ⟨?_, ?_, ?_, ?_⟩, by dsimp only; omega, ?_⟩
  · dsimp only
    rw [List.length_set, hlen1, hlen, hcap1]
  · dsimp only
    rw [hnewlen]
    omega
  · rw [hnewlen]
    dsimp only
    omega
  · intro i hi
    rw [hnewlen] at hi
    dsimp only
    by_cases hieq : i = idx
    · rw [hieq, List.getElem?_set_eq_of_lt _ hidxlt,
        List.getElem?_append, if_neg (by rw [List.length_take]; omega)]
      have : idx - (vs.take idx).length = 0 := by rw [List.length_take]; omega
      rw [this, List.getElem?_cons_zero]
      rfl
    · rw [List.getElem?_set_ne (by omega), hformula i]
      by_cases hlow : i < idx
      · rw [if_neg (by omega), hget i (by omega), List.getElem?_append,
          if_pos (by rw [List.length_take]; omega)]
        congr 1
        rw [List.getElem?_take, if_pos (by omega)]
      · rw [if_pos (by omega), hget (i - 1) (by omega), List.getElem?_append,
          if_neg (by rw [List.length_take]; omega)]
        congr 1
        have hlent : (vs.take idx).length = idx := by rw [List.length_take]; omega
        rw [hlent, show i - idx = (i - idx - 1) + 1 by omega, List.getElem?_cons_succ,
          List.getElem?_drop]
        congr 1
        omega
  · dsimp only
    rw [readSlot, List.getElem?_set_eq_of_lt _ hidxlt]

/-- Witness for C7 (amended): inserting 2 at index 1 of the
array-backed container holding 1, 3 yields the sequence 1, 2, 3 with
length 3. -/
theorem insert_behavior_witness :
    ∃ t, cheapVec2.insert 1 2 = some t ∧ Holds t [1, 2, 3] ∧ t.m_size = 3 ∧
      t.readSlot 1 = some 2 := by
  have h := insert_behavior 2 (show Holds cheapVec2 [1, 3] by decide)
    (by decide) (by decide) (show 1 ≤ [1, 3].length by decide)
  simpa using h

/-- Counterexample to C7 as stated: the byte-backed container holding
10, 20, 30 has length 3 < capacity 4, and position 3 is exactly the
current end, so the claim promises a defined insertion leaving every
slot of [0, 4) validly constructed; but the final write of insert
assigns through a reference to slot 3, which holds no constructed
object, so the operation has no defined result (undefined behaviour,
modelled as none). -/
theorem insert_at_end_counterexample :
    rawVec3.m_size < rawVec3.cap ∧ rawVec3.insert 3 99 = none := by
  decide

/-- Correctness of the element-moving loop of the move constructors and
assignments: the destination receives exactly the values appended by
pushAll, and the source keeps its length and storage shape, with the
moved-out slots still live, now holding the moved-from values. -/
theorem moveOutLoop_spec (mv : α → α) (ws : List α) :
    ∀ (i : Nat) (src dst : StaticVector α),
      (∀ k, k < ws.length → src.m_storage[i + k]? = (ws[k]?).map some) →
      ∀ d, dst.pushAll ws = some d →
        ∃ s2, moveOutLoop mv dst src i ws.length = some (d, s2) ∧
          s2.m_size = src.m_size ∧ s2.cap = src.cap ∧ s2.trivCtor = src.trivCtor ∧
          s2.trivDtor = src.trivDtor ∧ s2.m_storage.length = src.m_storage.length ∧
          (∀ j, (j < i ∨ i + ws.length ≤ j) → s2.m_storage[j]? = src.m_storage[j]?) ∧
          (∀ k, k < ws.length → s2.m_storage[i + k]? = ((ws.map mv)[k]?).map some) := by
  induction ws with
  | nil =>
      intro i src dst _ d hd
      rw [pushAll, List.foldlM_nil] at hd
      cases hd
      exact ⟨src, rfl, rfl, rfl, rfl, rfl, rfl, fun j _ => rfl, fun k hk => by simp at hk⟩
  | cons w ws ih =>
      intro i src dst hsrc d hd
      rw [pushAll, List.foldlM_cons] at hd
      have h0 : src.readSlot i = some w := by
        have h := hsrc 0 (by simp)
        simp only [Nat.add_zero, List.getElem?_cons_zero, Option.map_some'] at h
        simp [readSlot, h]
      have hilt : i < src.m_storage.length := by
        have h := hsrc 0 (by simp)
        simp only [Nat.add_zero, List.getElem?_cons_zero, Option.map_some'] at h
        by_contra hc
        rw [List.getElem?_eq_none (by omega)] at h
        exact Option.noConfusion h
      cases hpb : dst.push_back w with
      | none =>
          rw [hpb] at hd
          exact Option.noConfusion hd
      | some d1 =>
          rw [hpb] at hd
          simp only [Option.bind_eq_bind, Option.some_bind, Option.bind_some] at hd
          obtain ⟨s2, hloop, hsz, hcap, htc, htd, hlen, houter, hmoved⟩ :=
            ih (i + 1) { src with m_storage := src.m_storage.set i (some (mv w)) } d1
              (fun k hk => by
                dsimp only
                rw [List.getElem?_set_ne (by omega)]
                have h := hsrc (k + 1) (by simpa using Nat.succ_lt_succ hk)
                rw [show i + 1 + k = i + (k + 1) by omega]
                simpa using h)
              d (by rw [pushAll]; exact hd)
          refine ⟨s2, ?_, by simpa using hsz, by simpa using hcap, by simpa using htc,
            by simpa using htd, by simpa using hlen, ?_, ?_⟩
          · show (match src.readSlot i with
              | some v =>
                match dst.push_back v with
                | some d =>
                    moveOutLoop mv d
                      { src with m_storage := src.m_storage.set i (some (mv v)) } (i + 1) ws.length
                | none => none
              | none => none) = some (d, s2)
            rw [h0]
            dsimp only
            rw [hpb]
            exact hloop
          · intro j hj
            simp only [List.length_cons] at hj
            rw [houter j (by omega)]
            dsimp only
            exact List.getElem?_set_ne (by omega)
          · intro k hk
            cases k with
            | zero =>
                rw [Nat.add_zero, houter i (by omega)]
                dsimp only
                rw [List.getElem?_set_eq_of_lt _ hilt]
                simp
            | succ k =>
                have h := hmoved k (by simpa using Nat.lt_of_succ_lt_succ hk)
                rw [show i + (k + 1) = i + 1 + k by omega, h]
                simp

/-- Claim C10: same-capacity move construction from a source holding
vs, and same-capacity non-aliased move assignment from it, leave the
source's length unchanged and all its slots [0, n) live, now holding
the moved-from values: the source is neither emptied nor cleared. -/
theorem move_source_stays_full [Inhabited α] (mv : α → α)
    {s : StaticVector α} {vs : List α} (hs : Holds s vs) :
    (∃ d s2, moveCtor mv s = some (d, s2) ∧ Holds d vs ∧
      s2.m_size = s.m_size ∧ Holds s2 (vs.map mv)) ∧
    (∀ dst : StaticVector α, dst.m_storage.length = dst.cap → dst.cap = s.cap →
      ∃ d s2, moveAssign mv false dst s = some (d, s2) ∧ Holds d vs ∧
        s2.m_size = s.m_size ∧ Holds s2 (vs.map mv)) := by
  have hsz : s.m_size = vs.length := hs.2.1
  have hle : vs.length ≤ s.cap := hs.2.2.1
  have hslots : ∀ k, k < vs.length → s.m_storage[0 + k]? = (vs[k]?).map some := by
    intro k hk
    simpa using hs.2.2.2 k hk
  have main : ∀ dst : StaticVector α, Holds dst [] → vs.length ≤ dst.cap →
      ∃ d s2, moveOutLoop mv dst s 0 s.m_size = some (d, s2) ∧ Holds d vs ∧
        s2.m_size = s.m_size ∧ Holds s2 (vs.map mv) := by
    intro dst hdst hroom
    obtain ⟨d, hd, hdH, -, -, -, -⟩ :=
      Holds_pushAll vs hdst (by simpa using hroom)
    obtain ⟨s2, hloop, hsz2, hcap2, -, -, hlen2, -, hmoved⟩ :=
      moveOutLoop_spec mv vs 0 s dst hslots d hd
    refine ⟨d, s2, by rw [hsz]; exact hloop, by simpa using hdH, hsz2, ?_⟩
    refine ⟨by rw [hlen2, hs.1, hcap2], by simp [hsz2, hsz], by simp [hcap2]; omega, ?_⟩
    intro k hk
    have h := hmoved k (by simpa using hk)
    simpa using h
  constructor
  · obtain ⟨d, s2, hloop, hd, h1, h2⟩ :=
      main (mkEmpty s.trivCtor s.trivDtor s.cap) (Holds_mkEmpty _ _ _)
        (by simpa [mkEmpty] using hle)
    exact ⟨d, s2, by rw [moveCtor]; exact hloop, hd, h1, h2⟩
  · intro dst hdl hdcap
    obtain ⟨d, s2, hloop, hd, h1, h2⟩ :=
      main dst.clear (Holds_clear hdl) (by simp [clear]; omega)
    exact ⟨d, s2, by simpa [moveAssign] using hloop, hd, h1, h2⟩

/-- Witness for C10: move-constructing from the byte-backed container
holding 10, 20, 30 (with the identity moved-from transformation of a
trivially movable element type) leaves the source with length 3 and all
three slots live. -/
theorem move_source_stays_full_witness :
    ∃ d s2, moveCtor id rawVec3 = some (d, s2) ∧ Holds d [10, 20, 30] ∧
      s2.m_size = 3 ∧ Holds s2 [10, 20, 30] := by
  have h := (move_source_stays_full id (show Holds rawVec3 [10, 20, 30] by decide)).1
  simpa using h

/-! Field-preservation helper lemmas for the invariant claim. -/

theorem SizeInv_of_Holds {s : StaticVector α} {vs : List α} (h : Holds s vs) : SizeInv s :=
  ⟨h.1, by rw [h.2.1]; exact h.2.2.1⟩

theorem mkEmpty_sizeInv [Inhabited α] (tc td : Bool) (cap : Nat) :
    SizeInv (mkEmpty (α := α) tc td cap) ∧ (mkEmpty (α := α) tc td cap).cap = cap := by
  refine ⟨⟨?_, by simp [mkEmpty]⟩, rfl⟩
  unfold mkEmpty
  dsimp only
  split <;> simp

theorem assignAt_fields {s t : StaticVector α} {i : Nat} {v : α}
    (h : s.assignAt i v = some t) :
    t.m_size = s.m_size ∧ t.cap = s.cap ∧ t.m_storage.length = s.m_storage.length := by
  unfold assignAt at h
  split at h
  · injection h with h
    subst h
    exact ⟨rfl, rfl, by simp⟩
  · exact Option.noConfusion h

theorem constructAt_fields {s t : StaticVector α} {i : Nat} {v : α}
    (h : s.constructAt i v = some t) :
    t.m_size = s.m_size ∧ t.cap = s.cap ∧ t.m_storage.length = s.m_storage.length := by
  unfold constructAt at h
  split at h
  · injection h with h
    subst h
    exact ⟨rfl, rfl, by simp⟩
  · exact Option.noConfusion h

theorem destroyAt_fields {s t : StaticVector α} {i : Nat} (h : s.destroyAt i = some t) :
    t.m_size = s.m_size ∧ t.cap = s.cap ∧ t.m_storage.length = s.m_storage.length := by
  unfold destroyAt at h
  split at h
  · injection h with h
    subst h
    refine ⟨rfl, rfl, ?_⟩
    dsimp only
    split <;> simp
  · exact Option.noConfusion h

theorem push_back_fields {s t : StaticVector α} {e : α} (h : s.push_back e = some t) :
    t.m_size = s.m_size + 1 ∧ s.m_size < s.cap ∧ t.cap = s.cap ∧
      t.m_storage.length = s.m_storage.length := by
  unfold push_back at h
  split at h
  case isTrue hlt =>
    cases hc : s.constructAt s.m_size e with
    | none =>
        rw [hc] at h
        simp only [Option.map_none'] at h
        exact Option.noConfusion h
    | some u =>
        rw [hc] at h
        simp only [Option.map_some'] at h
        injection h with h
        subst h
        obtain ⟨f1, f2, f3⟩ := constructAt_fields hc
        exact ⟨by simp [f1], hlt, f2, f3⟩
  case isFalse => exact Option.noConfusion h

/-- emplace_back has the same body as push_back once the element has
been constructed from the forwarded arguments. -/
theorem emplace_back_eq_push_back (s : StaticVector α) (e : α) :
    s.emplace_back e = s.push_back e := rfl

theorem pop_back_fields {s t : StaticVector α} {v : α} (h : s.pop_back = some (v, t)) :
    t.m_size = s.m_size - 1 ∧ 0 < s.m_size ∧ t.cap = s.cap ∧
      t.m_storage.length = s.m_storage.length := by
  unfold pop_back at h
  split at h
  case isTrue hpos =>
    cases hr : s.readSlot (s.m_size - 1) with
    | none =>
        rw [hr] at h
        exact Option.noConfusion h
    | some w =>
        rw [hr] at h
        dsimp only at h
        cases hd : ({ s with m_size := s.m_size - 1 } : StaticVector α).destroyAt
            (s.m_size - 1) with
        | none =>
            rw [hd] at h
            exact Option.noConfusion h
        | some u =>
            rw [hd] at h
            dsimp only at h
            injection h with h
            rw [Prod.mk.injEq] at h
            obtain ⟨-, h2⟩ := h
            subst h2
            obtain ⟨f1, f2, f3⟩ := destroyAt_fields hd
            exact ⟨by simpa using f1, hpos, by simpa using f2, by simpa using f3⟩
  case isFalse => exact Option.noConfusion h

theorem clear_fields (s : StaticVector α) :
    s.clear.m_size = 0 ∧ s.clear.cap = s.cap ∧
      s.clear.m_storage.length = s.m_storage.length := by
  refine ⟨rfl, rfl, ?_⟩
  unfold clear
  dsimp only
  split <;> simp [destroyBelow_length]

theorem pushN_sizeInv {v : α} : ∀ (n : Nat) {s t : StaticVector α}, SizeInv s →
    s.pushN v n = some t →
    SizeInv t ∧ t.cap = s.cap ∧ t.m_storage.length = s.m_storage.length
  | 0, s, t, hs, h => by
      rw [pushN] at h
      cases h
      exact ⟨hs, rfl, rfl⟩
  | n + 1, s, t, hs, h => by
      rw [pushN] at h
      cases hp : s.push_back v with
      | none => rw [hp] at h; exact Option.noConfusion h
      | some u =>
          rw [hp] at h
          obtain ⟨f1, f2, f3, f4⟩ := push_back_fields hp
          obtain ⟨hs1, hs2⟩ := hs
          obtain ⟨g1, g2, g3⟩ :=
            pushN_sizeInv n (⟨by omega, by omega⟩ : SizeInv u) h
          exact ⟨g1, by omega, by omega⟩

theorem pushAll_sizeInv : ∀ (vs : List α) {s t : StaticVector α}, SizeInv s →
    s.pushAll vs = some t →
    SizeInv t ∧ t.cap = s.cap ∧ t.m_storage.length = s.m_storage.length
  | [], s, t, hs, h => by
      rw [pushAll, List.foldlM_nil] at h
      cases h
      exact ⟨hs, rfl, rfl⟩
  | v :: vs, s, t, hs, h => by
      rw [pushAll, List.foldlM_cons] at h
      cases hp : s.push_back v with
      | none => rw [hp] at h; simp at h
      | some u =>
          rw [hp] at h
          simp only [Option.bind_eq_bind, Option.some_bind, Option.bind_some] at h
          obtain ⟨f1, f2, f3, f4⟩ := push_back_fields hp
          obtain ⟨hs1, hs2⟩ := hs
          obtain ⟨g1, g2, g3⟩ := pushAll_sizeInv vs (⟨by omega, by omega⟩ : SizeInv u)
            (by rw [pushAll]; exact h)
          exact ⟨g1, by omega, by omega⟩

theorem assignRange_fields {v : α} : ∀ (n : Nat) {i : Nat} {s t : StaticVector α},
    s.assignRange i v n = some t →
    t.m_size = s.m_size ∧ t.cap = s.cap ∧ t.m_storage.length = s.m_storage.length
  | 0, i, s, t, h => by
      rw [assignRange] at h
      cases h
      exact ⟨rfl, rfl, rfl⟩
  | n + 1, i, s, t, h => by
      rw [assignRange] at h
      cases ha : s.assignAt i v with
      | none => rw [ha] at h; exact Option.noConfusion h
      | some u =>
          rw [ha] at h
          dsimp only at h
          obtain ⟨f1, f2, f3⟩ := assignAt_fields ha
          obtain ⟨g1, g2, g3⟩ := assignRange_fields n h
          exact ⟨by omega, by omega, by omega⟩

theorem shiftUpN_fields : ∀ (n : Nat) {idx : Nat} {s t : StaticVector α},
    s.shiftUpN idx n = some t →
    t.m_size = s.m_size ∧ t.cap = s.cap ∧ t.m_storage.length = s.m_storage.length
  | 0, idx, s, t, h => by
      rw [shiftUpN] at h
      cases h
      exact ⟨rfl, rfl, rfl⟩
  | n + 1, idx, s, t, h => by
      rw [shiftUpN] at h
      cases hr : s.readSlot (idx + n) with
      | none => rw [hr] at h; exact Option.noConfusion h
      | some w =>
          rw [hr] at h
          dsimp only at h
          cases ha : s.assignAt (idx + n + 1) w with
          | none => rw [ha] at h; exact Option.noConfusion h
          | some u =>
              rw [ha] at h
              dsimp only at h
              obtain ⟨f1, f2, f3⟩ := assignAt_fields ha
              obtain ⟨g1, g2, g3⟩ := shiftUpN_fields n h
              exact ⟨by omega, by omega, by omega⟩

theorem moveLoop_fields : ∀ (n : Nat) {dst src : Nat} {s t : StaticVector α},
    s.moveLoop dst src n = some t →
    t.m_size = s.m_size ∧ t.cap = s.cap ∧ t.m_storage.length = s.m_storage.length
  | 0, dst, src, s, t, h => by
      rw [moveLoop] at h
      cases h
      exact ⟨rfl, rfl, rfl⟩
  | n + 1, dst, src, s, t, h => by
      rw [moveLoop] at h
      cases hr : s.readSlot src with
      | none => rw [hr] at h; exact Option.noConfusion h
      | some w =>
          rw [hr] at h
          dsimp only at h
          cases ha : s.assignAt dst w with
          | none => rw [ha] at h; exact Option.noConfusion h
          | some u =>
              rw [ha] at h
              dsimp only at h
              obtain ⟨f1, f2, f3⟩ := assignAt_fields ha
              obtain ⟨g1, g2, g3⟩ := moveLoop_fields n h
              exact ⟨by omega, by omega, by omega⟩

theorem copyLoop_sizeInv : ∀ (n : Nat) {i : Nat} {dst src d : StaticVector α}, SizeInv dst →
    copyLoop dst src i n = some d →
    SizeInv d ∧ d.cap = dst.cap ∧ d.m_storage.length = dst.m_storage.length
  | 0, i, dst, src, d, hs, h => by
      rw [copyLoop] at h
      cases h
      exact ⟨hs, rfl, rfl⟩
  | n + 1, i, dst, src, d, hs, h => by
      rw [copyLoop] at h
      cases hr : src.readSlot i with
      | none => rw [hr] at h; exact Option.noConfusion h
      | some w =>
          rw [hr] at h
          dsimp only at h
          cases hp : dst.push_back w with
          | none => rw [hp] at h; exact Option.noConfusion h
          | some u =>
              rw [hp] at h
              dsimp only at h
              obtain ⟨f1, f2, f3, f4⟩ := push_back_fields hp
              obtain ⟨hs1, hs2⟩ := hs
              obtain ⟨g1, g2, g3⟩ := copyLoop_sizeInv n (⟨by omega, by omega⟩ : SizeInv u) h
              exact ⟨g1, by omega, by omega⟩

theorem moveOutLoop_fields (mv : α → α) :
    ∀ (n : Nat) {i : Nat} {dst src d s2 : StaticVector α}, SizeInv dst →
    moveOutLoop mv dst src i n = some (d, s2) →
    SizeInv d ∧ d.cap = dst.cap ∧ s2.m_size = src.m_size ∧ s2.cap = src.cap ∧
      s2.m_storage.length = src.m_storage.length
  | 0, i, dst, src, d, s2, hs, h => by
      rw [moveOutLoop] at h
      injection h with h
      rw [Prod.mk.injEq] at h
      obtain ⟨h1, h2⟩ := h
      subst h1
      subst h2
      exact ⟨hs, rfl, rfl, rfl, rfl⟩
  | n + 1, i, dst, src, d, s2, hs, h => by
      rw [moveOutLoop] at h
      cases hr : src.readSlot i with
      | none => rw [hr] at h; exact Option.noConfusion h
      | some w =>
          rw [hr] at h
          dsimp only at h
          cases hp : dst.push_back w with
          | none => rw [hp] at h; exact Option.noConfusion h
          | some u =>
              rw [hp] at h
              dsimp only at h
              obtain ⟨f1, f2, f3, f4⟩ := push_back_fields hp
              obtain ⟨hs1, hs2⟩ := hs
              obtain ⟨g1, g2, g3, g4, g5⟩ :=
                moveOutLoop_fields mv n (⟨by omega, by omega⟩ : SizeInv u) h
              exact ⟨g1, by omega, by simpa using g3, by simpa using g4,
                by simpa [List.length_set] using g5⟩

/-- Claim C9: every public operation preserves the invariant
0 <= length <= capacity, and no operation ever grows the storage block
beyond the capacity fixed at construction: every constructor
establishes SizeInv, and every mutator that completes preserves SizeInv
while keeping the capacity and the storage length unchanged. -/
theorem invariant_length_le_capacity {α : Type} [Inhabited α] :
    (∀ (tc td : Bool) (cap : Nat),
      SizeInv (mkEmpty (α := α) tc td cap) ∧ (mkEmpty (α := α) tc td cap).cap = cap) ∧
    (∀ (s t : StaticVector α) (e : α), SizeInv s → s.push_back e = some t →
      SizeInv t ∧ t.cap = s.cap ∧ t.m_storage.length = s.m_storage.length) ∧
    (∀ (s t : StaticVector α) (e : α), SizeInv s → s.emplace_back e = some t →
      SizeInv t ∧ t.cap = s.cap ∧ t.m_storage.length = s.m_storage.length) ∧
    (∀ (s t : StaticVector α) (v : α), SizeInv s → s.pop_back = some (v, t) →
      SizeInv t ∧ t.cap = s.cap ∧ t.m_storage.length = s.m_storage.length) ∧
    (∀ s : StaticVector α, SizeInv s →
      SizeInv s.clear ∧ s.clear.cap = s.cap ∧ s.clear.m_storage.length = s.m_storage.length) ∧
    (∀ (s t : StaticVector α) (n : Nat) (v : α), SizeInv s → s.assign n v = some t →
      SizeInv t ∧ t.cap = s.cap ∧ t.m_storage.length = s.m_storage.length) ∧
    (∀ (s t : StaticVector α) (n : Nat), SizeInv s → s.resize n = some t →
      SizeInv t ∧ t.cap = s.cap ∧ t.m_storage.length = s.m_storage.length) ∧
    (∀ (s t : StaticVector α) (pos : Int) (v : α), SizeInv s → s.insert pos v = some t →
      SizeInv t ∧ t.cap = s.cap ∧ t.m_storage.length = s.m_storage.length) ∧
    (∀ (s t : StaticVector α) (f l : Nat), SizeInv s → s.erase f l = some t →
      SizeInv t ∧ t.cap = s.cap ∧ t.m_storage.length = s.m_storage.length) ∧
    (∀ (tc td : Bool) (cap : Nat) (src t : StaticVector α),
      crossCopyCtor tc td cap src = some t → SizeInv t ∧ t.cap = cap) ∧
    (∀ dst src t : StaticVector α, SizeInv dst → crossCopyAssign dst src = some t →
      SizeInv t ∧ t.cap = dst.cap) ∧
    (∀ src t : StaticVector α, copyCtor src = some t → SizeInv t ∧ t.cap = src.cap) ∧
    (∀ (b : Bool) (dst src t : StaticVector α), SizeInv dst → copyAssign b dst src = some t →
      SizeInv t ∧ t.cap = dst.cap) ∧
    (∀ (mv : α → α) (src d s2 : StaticVector α), SizeInv src → moveCtor mv src = some (d, s2) →
      SizeInv d ∧ d.cap = src.cap ∧ SizeInv s2 ∧ s2.cap = src.cap) ∧
    (∀ (mv : α → α) (b : Bool) (dst src d s2 : StaticVector α), SizeInv dst → SizeInv src →
      moveAssign mv b dst src = some (d, s2) → SizeInv d ∧ SizeInv s2) ∧
    (∀ (mv : α → α) (tc td : Bool) (cap : Nat) (src d s2 : StaticVector α), SizeInv src →
      crossMoveCtor mv tc td cap src = some (d, s2) → SizeInv d ∧ d.cap = cap ∧ SizeInv s2) ∧
    (∀ (tc td : Bool) (cap : Nat) (vs : List α) (t : StaticVector α),
      (mkEmpty (α := α) tc td cap).pushAll vs = some t → SizeInv t ∧ t.cap = cap) ∧
    (∀ (tc td : Bool) (cap n : Nat) (v : α) (t : StaticVector α),
      (mkEmpty (α := α) tc td cap).pushN v n = some t → SizeInv t ∧ t.cap = cap) := by
  have hpb : ∀ (s t : StaticVector α) (e : α), SizeInv s → s.push_back e = some t →
      SizeInv t ∧ t.cap = s.cap ∧ t.m_storage.length = s.m_storage.length := by
    intro s t e hs h
    obtain ⟨f1, f2, f3, f4⟩ := push_back_fields h
    obtain ⟨hs1, hs2⟩ := hs
    exact ⟨⟨by omega, by omega⟩, f3, f4⟩
  have hclear : ∀ s : StaticVector α, SizeInv s →
      SizeInv s.clear ∧ s.clear.cap = s.cap ∧
        s.clear.m_storage.length = s.m_storage.length := by
    intro s hs
    obtain ⟨f1, f2, f3⟩ := clear_fields s
    obtain ⟨hs1, hs2⟩ := hs
    exact ⟨⟨by omega, by omega⟩, f2, f3⟩
  refine ⟨mkEmpty_sizeInv, hpb, ?_, ?_, hclear, ?_, ?_, ?_, ?_, ?_, ?_, ?_, ?_, ?_, ?_, ?_,
    ?_, ?_⟩
  · intro s t e hs h
    exact hpb s t e hs (by rw [← emplace_back_eq_push_back]; exact h)
  · intro s t v hs h
    obtain ⟨f1, f2, f3, f4⟩ := pop_back_fields h
    obtain ⟨hs1, hs2⟩ := hs
    exact ⟨⟨by omega, by omega⟩, f3, f4⟩
  · intro s t n v hs h
    unfold assign at h
    split at h
    case isTrue hn =>
      obtain ⟨c1, c2, c3⟩ := clear_fields s
      obtain ⟨hs1, hs2⟩ := hs
      obtain ⟨g1, g2, g3⟩ := pushN_sizeInv n (⟨by omega, by omega⟩ : SizeInv s.clear) h
      exact ⟨g1, by omega, by omega⟩
    case isFalse => exact Option.noConfusion h
  · intro s t n hs h
    obtain ⟨hs1, hs2⟩ := hs
    unfold resize at h
    split at h
    case isTrue hn =>
      split at h
      case isTrue hgrow =>
        obtain ⟨f1, f2, f3⟩ := assignRange_fields (n - s.m_size) h
        dsimp only at f1 f2 f3
        exact ⟨⟨by omega, by omega⟩, by omega, by omega⟩
      case isFalse hshrink =>
        injection h with h
        subst h
        exact ⟨⟨by simpa using hs1, by dsimp only; omega⟩, rfl, by simp⟩
    case isFalse => exact Option.noConfusion h
  · intro s t pos v hs h
    obtain ⟨hs1, hs2⟩ := hs
    unfold insert at h
    split at h
    case isTrue hlt =>
      split at h
      case isTrue hpos =>
        dsimp only at h
        cases hsh : s.shiftUpN pos.toNat (s.m_size - pos.toNat) with
        | none => rw [hsh] at h; exact Option.noConfusion h
        | some u =>
            rw [hsh] at h
            dsimp only at h
            cases ha : u.assignAt pos.toNat v with
            | none => rw [ha] at h; exact Option.noConfusion h
            | some w =>
                rw [ha] at h
                dsimp only at h
                injection h with h
                subst h
                obtain ⟨f1, f2, f3⟩ := shiftUpN_fields (s.m_size - pos.toNat) hsh
                obtain ⟨g1, g2, g3⟩ := assignAt_fields ha
                exact ⟨⟨by simp; omega, by simp; omega⟩, by simp; omega, by simp; omega⟩
      case isFalse => exact Option.noConfusion h
    case isFalse => exact Option.noConfusion h
  · intro s t f l hs h
    obtain ⟨hs1, hs2⟩ := hs
    unfold erase at h
    cases hml : s.moveLoop f l (s.m_size - l) with
    | none => rw [hml] at h; exact Option.noConfusion h
    | some u =>
        rw [hml] at h
        dsimp only at h
        split at h
        case isTrue hc =>
          injection h with h
          subst h
          obtain ⟨f1, f2, f3⟩ := moveLoop_fields (s.m_size - l) hml
          exact ⟨⟨by simp; omega, by simp; omega⟩, by simp; omega, by simp; omega⟩
        case isFalse => exact Option.noConfusion h
  · intro tc td cap src t h
    unfold crossCopyCtor at h
    split at h
    case isTrue =>
      obtain ⟨g1, g2, g3⟩ :=
        copyLoop_sizeInv src.m_size (mkEmpty_sizeInv (α := α) tc td cap).1 h
      exact ⟨g1, g2⟩
    case isFalse => exact Option.noConfusion h
  · intro dst src t hs h
    unfold crossCopyAssign at h
    split at h
    case isTrue =>
      obtain ⟨g1, g2, g3⟩ := copyLoop_sizeInv src.m_size (hclear dst hs).1 h
      exact ⟨g1, g2⟩
    case isFalse => exact Option.noConfusion h
  · intro src t h
    unfold copyCtor at h
    obtain ⟨g1, g2, g3⟩ :=
      copyLoop_sizeInv src.m_size (mkEmpty_sizeInv src.trivCtor src.trivDtor src.cap).1 h
    exact ⟨g1, g2⟩
  · intro b dst src t hs h
    unfold copyAssign at h
    split at h
    case isTrue =>
      injection h with h
      subst h
      exact ⟨hs, rfl⟩
    case isFalse =>
      obtain ⟨g1, g2, g3⟩ := copyLoop_sizeInv src.m_size (hclear dst hs).1 h
      exact ⟨g1, g2⟩
  · intro mv src d s2 hs h
    unfold moveCtor at h
    obtain ⟨g1, g2, g3, g4, g5⟩ := moveOutLoop_fields mv src.m_size
      (mkEmpty_sizeInv src.trivCtor src.trivDtor src.cap).1 h
    obtain ⟨hs1, hs2⟩ := hs
    exact ⟨g1, g2, ⟨by omega, by omega⟩, g4⟩
  · intro mv b dst src d s2 hd hs h
    unfold moveAssign at h
    split at h
    case isTrue =>
      injection h with h
      rw [Prod.mk.injEq] at h
      obtain ⟨h1, h2⟩ := h
      subst h1
      subst h2
      exact ⟨hd, hs⟩
    case isFalse =>
      obtain ⟨g1, g2, g3, g4, g5⟩ := moveOutLoop_fields mv src.m_size (hclear dst hd).1 h
      obtain ⟨hs1, hs2⟩ := hs
      exact ⟨g1, ⟨by omega, by omega⟩⟩
  · intro mv tc td cap src d s2 hs h
    unfold crossMoveCtor at h
    split at h
    case isTrue =>
      obtain ⟨g1, g2, g3, g4, g5⟩ := moveOutLoop_fields mv src.m_size
        (mkEmpty_sizeInv (α := α) tc td cap).1 h
      obtain ⟨hs1, hs2⟩ := hs
      exact ⟨g1, g2, ⟨by omega, by omega⟩⟩
    case isFalse => exact Option.noConfusion h
  · intro tc td cap vs t h
    obtain ⟨g1, g2, g3⟩ := pushAll_sizeInv vs (mkEmpty_sizeInv (α := α) tc td cap).1 h
    exact ⟨g1, g2⟩
  · intro tc td cap n v t h
    obtain ⟨g1, g2, g3⟩ := pushN_sizeInv n (mkEmpty_sizeInv (α := α) tc td cap).1 h
    exact ⟨g1, g2⟩

/-- Witness for C9 at a concrete mutation: pushing 7 into the
single-element container of capacity 2 yields a state satisfying the
invariant. -/
theorem invariant_length_le_capacity_witness :
    SizeInv ({ trivCtor := true, trivDtor := true, cap := 2,
               m_storage := [some 5, some 7], m_size := 2 } : StaticVector Nat) := by
  exact ((invariant_length_le_capacity (α := Nat)).2.1 cheapVec1 _ 7
    (by decide) (by decide)).1

end StaticVector

end IgorExt
